import Mathlib

/-!
Shallow embedding of the `rdb` key-value storage engine (`src/main.rs`).

The engine combines a durable commit log, an in-memory pending-mutation
index (`BTreeMap<String, Vec<Command>>`), and an immutable on-disk sorted
table (sstable), with a compaction procedure that merges the sorted table
and the pending mutations into a fresh sorted table.

Modelling choices:
* Rust `String` keys and values are modelled as `Str := List Char`.
  Rust compares `String`s byte-lexicographically over UTF-8, which agrees
  with the lexicographic order on the underlying scalar-value sequence, so
  the `List Char` lexicographic order is the same order.
* The `BTreeMap` is modelled as a key-sorted association list; `mutPush`
  models `entry(key).or_insert(Default::default()).push(cmd)` and keeps
  the list key-sorted, matching the map's ascending iteration order.
* The commit log is modelled as the list of decoded records in append
  order (the codec is lossless, `decode (encode op) = op`, so the list of
  `Command`s is a faithful model of the log contents).
* A Rust panic (`expect` on a storage-integrity failure) is modelled as
  `none` at the outer `Option` layer of the affected operation.
* `insert` and `delete` also return the sequence of externally visible
  I/O events (`Ev`) they perform, in program order, so that ordering
  claims about the durability barrier can be stated.
-/

/-- Keys and values: Rust `String`, ordered byte-lexicographically. -/
abbrev Str := List Char

/-- The `Command` enum of `src/main.rs` (also the unit of log storage). -/
inductive Command where
  | SELECT : Str → Command
  | INSERT : Str → Str → Command
  | DELETE : Str → Command
  | DUMP : Command
  | COMPACT : Command
  | EXIT : Command
deriving DecidableEq

/-- `Command::key` from `src/main.rs` lines 79-86: the subject key of a
command, when it has one. Note that `SELECT` does return its key. -/
def Command.key : Command → Option Str
  | Command.SELECT k => some k
  | Command.INSERT k _ => some k
  | Command.DELETE k => some k
  | _ => none

/-- The pending-mutation index: `BTreeMap<String, Vec<Command>>`, modelled
as a key-sorted association list. -/
abbrev Mutations := List (Str × List Command)

/-- Lookup in the pending-mutation index (`self.mutations.get(key)`). -/
def mutGet (k : Str) : Mutations → Option (List Command)
  | [] => none
  | (k', cs) :: rest => if k = k' then some cs else mutGet k rest

/-- Model of `self.mutations.entry(key).or_insert(Default::default()).push(cmd)`:
appends `c` to the sequence for key `k`, creating the entry if absent, and
keeps the association list sorted by key (the `BTreeMap` order). -/
def mutPush (k : Str) (c : Command) : Mutations → Mutations
  | [] => [(k, [c])]
  | (k', cs) :: rest =>
    if k = k' then (k', cs ++ [c]) :: rest
    else if k < k' then (k, [c]) :: (k', cs) :: rest
    else (k', cs) :: mutPush k c rest

/-- Lookup of a key in the sorted table (`self.sstable.get(key)`), in the
clean model where the read succeeds and the value decodes. -/
def sstableGet (k : Str) : List (Str × Str) → Option Str
  | [] => none
  | (k', v) :: rest => if k = k' then some v else sstableGet k rest

/-- One iteration of the `for cmd in cmds` loop in `compact_key`
(lines 190-195): `INSERT` sets the value, `DELETE` clears it, every other
command leaves it unchanged. -/
def applyCmd (fv : Option Str) : Command → Option Str
  | Command.INSERT _ v => some v
  | Command.DELETE _ => none
  | _ => fv

/-- The whole `for` loop of `compact_key`: fold the pending command
sequence over the base value. -/
def applyCmds (cs : List Command) (fv : Option Str) : Option Str :=
  cs.foldl applyCmd fv

/-- The `match self.mutations.get(key)` step of `compact_key`
(lines 187-199): no entry leaves the base value, an entry folds its
command sequence over it. -/
def applyMuts (m : Option (List Command)) (fv : Option Str) : Option Str :=
  match m with
  | none => fv
  | some cs => applyCmds cs fv

/-- The engine state: commit log contents (in append order), the
pending-mutation index, and the sorted-table contents. -/
structure DiskTable where
  log : List Command
  mutations : Mutations
  sstable : List (Str × Str)
deriving DecidableEq

/-- One step of the recovery loop of `DiskTable::new` (lines 163-173): a
decoded record with a subject key is appended to that key's mutation
sequence; a record without one is silently skipped. -/
def replayStep (m : Mutations) (c : Command) : Mutations :=
  match c.key with
  | none => m
  | some k => mutPush k c m

/-- The whole recovery loop: replay the log from the start into a fresh
pending-mutation index, preserving log order. -/
def replay (log : List Command) : Mutations :=
  log.foldl replayStep []

/-- `DiskTable::new` (lines 146-175), given the persisted directory state:
the sorted-table contents and the commit-log records found on disk (both
empty for a fresh directory). The pending-mutation index is rebuilt from
the log. -/
def DiskTable.new (sstable : List (Str × Str)) (log : List Command) : DiskTable :=
  { log := log, mutations := replay log, sstable := sstable }

/-- `DiskTable::compact_key` (lines 179-200) in the clean model: the base
value from the sorted table with the key's pending command sequence
applied in recorded order. -/
def DiskTable.compact_key (t : DiskTable) (k : Str) : Option Str :=
  applyMuts (mutGet k t.mutations) (sstableGet k t.sstable)

/-- `DiskTable::select` (lines 284-286): exactly `compact_key`. -/
def DiskTable.select (t : DiskTable) (k : Str) : Option Str :=
  t.compact_key k

/-- Externally visible I/O events of a write operation, in program order:
commit-log append, pending-mutation-index update, commit-log flush, and
the report of the result to the caller. -/
inductive Ev where
  | append : Ev
  | indexUpdate : Ev
  | flush : Ev
  | ack : Ev
deriving DecidableEq

/-- `DiskTable::insert` (lines 271-282). Returns the new state, the
returned boolean, and the I/O events in the order the source performs
them: `append_msg` (line 276), then the `mutations` push (line 277), then
`flush` (line 278), then the return of `true` (line 279). -/
def DiskTable.insert (t : DiskTable) (key val : Str) : DiskTable × Bool × List Ev :=
  match t.compact_key key with
  | some _ => (t, false, [Ev.ack])
  | none =>
    let cmd := Command.INSERT key val
    ({ t with
        log := t.log ++ [cmd],
        mutations := mutPush key cmd t.mutations },
      true, [Ev.append, Ev.indexUpdate, Ev.flush, Ev.ack])

/-- `DiskTable::delete` (lines 288-299), mirroring `insert`: append
(line 292), index push (line 293), flush (line 294), return (line 295). -/
def DiskTable.delete (t : DiskTable) (key : Str) : DiskTable × Bool × List Ev :=
  match t.compact_key key with
  | some _ =>
    let cmd := Command.DELETE key
    ({ t with
        log := t.log ++ [cmd],
        mutations := mutPush key cmd t.mutations },
      true, [Ev.append, Ev.indexUpdate, Ev.flush, Ev.ack])
  | none => (t, false, [Ev.ack])

/-- Possible outcomes of the raw sorted-table read in `compact_key`
(lines 180-186): `Ok(Some(bytes))` that decode as UTF-8 to `s`,
`Ok(Some(bytes))` that are not valid UTF-8, `Ok(None)`, or `Err(_)`. -/
inductive SSGet where
  | found : Str → SSGet
  | badUtf8 : SSGet
  | missing : SSGet
  | ioError : SSGet
deriving DecidableEq

/-- The `let mut final_val = match self.sstable.get(key)` step of
`compact_key` (lines 180-186), faithful to the source's arms: a decoded
value, a fatal panic on undecodable bytes (`expect`, modelled as the
outer `none`), absent on `Ok(None)`, and silently absent on `Err(_)`. -/
def baseFromGet : SSGet → Option (Option Str)
  | SSGet.found s => some (some s)
  | SSGet.badUtf8 => none
  | SSGet.missing => some none
  | SSGet.ioError => some none

/-- `DiskTable::compact_key` over an arbitrary raw read outcome: the outer
`Option` is `none` exactly when the source panics (undecodable value). -/
def compact_keyGen (g : SSGet) (m : Option (List Command)) : Option (Option Str) :=
  match baseFromGet g with
  | none => none
  | some fv => some (applyMuts m fv)

/-- The raw read outcome produced by a well-formed sorted table (one the
engine itself wrote): every stored value is present and decodable. -/
def sstRead (ss : List (Str × Str)) (k : Str) : SSGet :=
  match sstableGet k ss with
  | none => SSGet.missing
  | some v => SSGet.found v

/-- The inner merge loop of `DiskTable::compact` (lines 234-253): consume
pending-index entries while their key is less than the current
sorted-table key, emitting each key whose resolved value is present; the
first entry with a key not less than the sorted-table key is consumed by
`mut_iter.next()` and discarded when the loop breaks. Returns the emitted
entries and the entries remaining in the iterator. -/
def innerLoop (ck : Str → Option Str) (s : Str) :
    Mutations → List (Str × Str) × Mutations
  | [] => ([], [])
  | (k, _cs) :: rest =>
    if k < s then
      match ck k with
      | none => innerLoop ck s rest
      | some v =>
        let p := innerLoop ck s rest
        ((k, v) :: p.1, p.2)
    else ([], rest)

/-- The drain loop of `DiskTable::compact` (lines 215-229), run once the
sorted-table iterator is exhausted: resolve each remaining pending key and
emit it when its value is present. -/
def drainMuts (ck : Str → Option Str) : Mutations → List (Str × Str)
  | [] => []
  | (k, _) :: rest =>
    match ck k with
    | none => drainMuts ck rest
    | some v => (k, v) :: drainMuts ck rest

/-- The outer merge loop of `DiskTable::compact` (lines 211-257) over the
sorted-table keys: run the inner loop, then emit the sorted-table key with
its resolved value — `compact_key(sstable_key).expect("Failed to get key")`
panics when that value is absent (a tombstoned base key), modelled by the
`false` flag, which also cuts emission short. -/
def outerLoop (ck : Str → Option Str) :
    List Str → Mutations → List (Str × Str) × Bool
  | [], muts => (drainMuts ck muts, true)
  | s :: ss, muts =>
    let p := innerLoop ck s muts
    match ck s with
    | none => (p.1, false)
    | some v =>
      let q := outerLoop ck ss p.2
      (p.1 ++ (s, v) :: q.1, q.2)

/-- The entries `DiskTable::compact` adds to the new table builder, in
order, together with a flag that is `false` when the merge panics. -/
def compactEntries (t : DiskTable) : List (Str × Str) × Bool :=
  outerLoop t.compact_key (t.sstable.map Prod.fst) t.mutations

/-- `DiskTable::compact` (lines 201-267): on success the new sorted table
holds exactly the emitted entries, the commit log is removed and
recreated empty, and the pending-mutation index is cleared; `none` models
the panic inside the merge. -/
def DiskTable.compact (t : DiskTable) : Option DiskTable :=
  match compactEntries t with
  | (es, true) => some { log := [], mutations := [], sstable := es }
  | (_, false) => none

/-- Reopening the engine against the same directory: the persisted sorted
table and commit log are re-read and the index is rebuilt by replay. -/
def reopen (t : DiskTable) : DiskTable :=
  DiskTable.new t.sstable t.log

/-- The write operations of the public interface. -/
inductive Op where
  | ins : Str → Str → Op
  | del : Str → Op
deriving DecidableEq

/-- Apply one write operation, keeping the resulting state. -/
def applyOp (t : DiskTable) : Op → DiskTable
  | Op.ins k v => (t.insert k v).1
  | Op.del k => (t.delete k).1

/-- Apply a sequence of write operations in order. -/
def applyOps (t : DiskTable) (ops : List Op) : DiskTable :=
  ops.foldl applyOp t

/-- Whole-session programs, for concrete executions: writes and
compactions. `none` models a panic somewhere in the run. -/
inductive Prog where
  | ins : Str → Str → Prog
  | del : Str → Prog
  | cpt : Prog

/-- Run a program from a state; a compaction panic aborts the run. -/
def run (t : DiskTable) : List Prog → Option DiskTable
  | [] => some t
  | Prog.ins k v :: ps => run (t.insert k v).1 ps
  | Prog.del k :: ps => run (t.delete k).1 ps
  | Prog.cpt :: ps => (t.compact).bind (fun t2 => run t2 ps)

/-- The invariant relating the in-memory index to the persisted log: the
index is exactly what replaying the log rebuilds. -/
def Wf (t : DiskTable) : Prop :=
  t.mutations = replay t.log

/-! ## General lemmas shared by the claim theorems -/

theorem applyCmds_append (l1 l2 : List Command) (fv : Option Str) :
    applyCmds (l1 ++ l2) fv = applyCmds l2 (applyCmds l1 fv) := by
  simp [applyCmds, List.foldl_append]

theorem mutGet_mutPush_ex (k : Str) (c : Command) (m : Mutations) :
    ∃ l, mutGet k (mutPush k c m) = some (l ++ [c]) := by
  induction m with
  | nil => exact ⟨[], by simp [mutPush, mutGet]⟩
  | cons kv rest ih =>
    obtain ⟨k', cs⟩ := kv
    by_cases h : k = k'
    · subst h
      exact ⟨cs, by simp [mutPush, mutGet]⟩
    · by_cases h2 : k < k'
      · exact ⟨[], by simp [mutPush, mutGet, h, h2]⟩
      · obtain ⟨l, hl⟩ := ih
        exact ⟨l, by simp [mutPush, mutGet, h, h2, hl]⟩

theorem insert_of_some (t : DiskTable) (k v w : Str) (h : t.compact_key k = some w) :
    t.insert k v = (t, false, [Ev.ack]) := by
  simp [DiskTable.insert, h]

theorem insert_of_none (t : DiskTable) (k v : Str) (h : t.compact_key k = none) :
    t.insert k v =
      ({ t with
          log := t.log ++ [Command.INSERT k v],
          mutations := mutPush k (Command.INSERT k v) t.mutations },
        true, [Ev.append, Ev.indexUpdate, Ev.flush, Ev.ack]) := by
  simp [DiskTable.insert, h]

theorem delete_of_none (t : DiskTable) (k : Str) (h : t.compact_key k = none) :
    t.delete k = (t, false, [Ev.ack]) := by
  simp [DiskTable.delete, h]

theorem delete_of_some (t : DiskTable) (k w : Str) (h : t.compact_key k = some w) :
    t.delete k =
      ({ t with
          log := t.log ++ [Command.DELETE k],
          mutations := mutPush k (Command.DELETE k) t.mutations },
        true, [Ev.append, Ev.indexUpdate, Ev.flush, Ev.ack]) := by
  simp [DiskTable.delete, h]

theorem compact_key_insert (t : DiskTable) (k v : Str) (h : t.compact_key k = none) :
    (t.insert k v).1.compact_key k = some v := by
  rw [insert_of_none t k v h]
  obtain ⟨l, hl⟩ := mutGet_mutPush_ex k (Command.INSERT k v) t.mutations
  simp only [DiskTable.compact_key]
  simp [hl, applyMuts, applyCmds_append, applyCmds, applyCmd]

theorem compact_key_delete (t : DiskTable) (k w : Str) (h : t.compact_key k = some w) :
    (t.delete k).1.compact_key k = none := by
  rw [delete_of_some t k w h]
  obtain ⟨l, hl⟩ := mutGet_mutPush_ex k (Command.DELETE k) t.mutations
  simp only [DiskTable.compact_key]
  simp [hl, applyMuts, applyCmds_append, applyCmds, applyCmd]

/-! ## Claim theorems -/

/-- C4: for every key and value, if the key currently has a present
Effective Value then `insert` fails (reports the duplicate) and leaves the
log, the pending-mutation index and hence every Effective Value unchanged
(the whole state is returned as is); if the key's Effective Value is
absent then `insert` succeeds, afterwards the key's Effective Value is
present and equal to the given value, and the only state change is the
appended log record and index entry. -/
theorem C4_insert_is_create (t : DiskTable) (k v : Str) :
    (t.select k ≠ none → t.insert k v = (t, false, [Ev.ack])) ∧
    (t.select k = none →
      (t.insert k v).2.1 = true ∧
      (t.insert k v).1.select k = some v ∧
      (t.insert k v).1.log = t.log ++ [Command.INSERT k v] ∧
      (t.insert k v).1.mutations = mutPush k (Command.INSERT k v) t.mutations ∧
      (t.insert k v).1.sstable = t.sstable) := by
  constructor
  · intro h
    cases hc : t.compact_key k with
    | none => exact absurd hc h
    | some w => exact insert_of_some t k v w hc
  · intro h
    have hc : t.compact_key k = none := h
    refine ⟨?_, compact_key_insert t k v hc, ?_, ?_, ?_⟩ <;>
      rw [insert_of_none t k v hc]

/-- C5: for every key, `delete` on a key whose Effective Value is absent
fails (not found) and changes nothing — no log append, no index change;
`delete` on a key with a present Effective Value succeeds and afterwards
the key's Effective Value is absent. -/
theorem C5_delete_requires_presence (t : DiskTable) (k : Str) :
    (t.select k = none → t.delete k = (t, false, [Ev.ack])) ∧
    (t.select k ≠ none →
      (t.delete k).2.1 = true ∧
      (t.delete k).1.select k = none ∧
      (t.delete k).1.log = t.log ++ [Command.DELETE k] ∧
      (t.delete k).1.sstable = t.sstable) := by
  constructor
  · intro h
    exact delete_of_none t k h
  · intro h
    cases hc : t.compact_key k with
    | none => exact absurd hc h
    | some w =>
      refine ⟨?_, compact_key_delete t k w hc, ?_, ?_⟩ <;>
        rw [delete_of_some t k w hc]

/-- C4 witness: in the empty engine, inserting key "a" with value "1"
succeeds and makes its Effective Value "1"; in an engine where "a" is
present, a second insert reports failure. -/
theorem C4_witness :
    ((DiskTable.new [] []).insert ['a'] ['1']).1.select ['a'] = some ['1'] ∧
    ((⟨[Command.INSERT ['a'] ['1']], [(['a'], [Command.INSERT ['a'] ['1']])], []⟩ :
        DiskTable).insert ['a'] ['2']).2.1 = false :=
  ⟨((C4_insert_is_create (DiskTable.new [] []) ['a'] ['1']).2 rfl).2.1,
   by rw [(C4_insert_is_create
       (⟨[Command.INSERT ['a'] ['1']], [(['a'], [Command.INSERT ['a'] ['1']])], []⟩ :
         DiskTable) ['a'] ['2']).1 (by decide)]⟩

/-- C5 witness: deleting "a" from the empty engine fails and changes
nothing; deleting "a" from an engine where it is present succeeds and
makes its Effective Value absent. -/
theorem C5_witness :
    (DiskTable.new [] []).delete ['a'] = (DiskTable.new [] [], false, [Ev.ack]) ∧
    ((⟨[Command.INSERT ['a'] ['1']], [(['a'], [Command.INSERT ['a'] ['1']])], []⟩ :
        DiskTable).delete ['a']).1.select ['a'] = none :=
  ⟨(C5_delete_requires_presence (DiskTable.new [] []) ['a']).1 rfl,
   ((C5_delete_requires_presence
       (⟨[Command.INSERT ['a'] ['1']], [(['a'], [Command.INSERT ['a'] ['1']])], []⟩ :
         DiskTable) ['a']).2 (by decide)).2.1⟩

/-- C2 counterexample: the claim states that the flush completes before
the pending-mutation index is updated. In the source the successful
insert path performs `append_msg` (line 276), then the index push
(line 277), then `flush` (line 278): on the concrete successful insert of
key "a" into the empty engine the event trace places the index update
strictly before the flush, refuting the claim. -/
theorem C2_counterexample :
    ((DiskTable.new [] []).insert ['a'] ['1']).2.1 = true ∧
    ((DiskTable.new [] []).insert ['a'] ['1']).2.2
      = [Ev.append, Ev.indexUpdate, Ev.flush, Ev.ack] ∧
    List.indexOf Ev.indexUpdate ((DiskTable.new [] []).insert ['a'] ['1']).2.2 <
      List.indexOf Ev.flush ((DiskTable.new [] []).insert ['a'] ['1']).2.2 := by
  decide

/-- C2 amended: in every successful insert and every successful delete
the events occur in the order log append, pending-mutation-index update,
log flush, success report — so the flush completes before success is
reported to the caller, but the in-memory index is updated before the
flush (right after the append), not after it. -/
theorem C2_ordering_amended (t : DiskTable) (k v : Str) :
    ((t.insert k v).2.1 = true →
      (t.insert k v).2.2 = [Ev.append, Ev.indexUpdate, Ev.flush, Ev.ack]) ∧
    ((t.delete k).2.1 = true →
      (t.delete k).2.2 = [Ev.append, Ev.indexUpdate, Ev.flush, Ev.ack]) := by
  constructor
  · intro h
    cases hc : t.compact_key k with
    | none => rw [insert_of_none t k v hc]
    | some w => rw [insert_of_some t k v w hc] at h ⊢; exact absurd h (by simp)
  · intro h
    cases hc : t.compact_key k with
    | none => rw [delete_of_none t k hc] at h ⊢; exact absurd h (by simp)
    | some w => rw [delete_of_some t k w hc]

/-- C2 witness: the amended ordering at a concrete successful insert and
a concrete successful delete. -/
theorem C2_witness :
    ((DiskTable.new [] []).insert ['a'] ['1']).2.2
      = [Ev.append, Ev.indexUpdate, Ev.flush, Ev.ack] ∧
    ((⟨[Command.INSERT ['a'] ['1']], [(['a'], [Command.INSERT ['a'] ['1']])], []⟩ :
        DiskTable).delete ['a']).2.2
      = [Ev.append, Ev.indexUpdate, Ev.flush, Ev.ack] :=
  ⟨(C2_ordering_amended (DiskTable.new [] []) ['a'] ['1']).1 (by decide),
   (C2_ordering_amended
       (⟨[Command.INSERT ['a'] ['1']], [(['a'], [Command.INSERT ['a'] ['1']])], []⟩ :
         DiskTable) ['a'] ['1']).2 (by decide)⟩

/-- C9 counterexample: the claim states that a Base Table read error never
silently yields an absent result. In `compact_key` (line 185) the arm
`Err(_) => None` maps a failed `sstable.get` to an absent base value: with
no pending operations for the key, the read then succeeds (no panic, the
outer layer is `some`) and reports the key as absent. -/
theorem C9_counterexample :
    compact_keyGen SSGet.ioError none = some none ∧
    compact_keyGen SSGet.ioError none ≠ none :=
  ⟨rfl, by decide⟩

/-- C9 amended: `select` is exactly `compact_key`, which computes the
Effective Value — the base value with each pending operation applied in
recorded order — with no side effects; the only fatal outcome (outer
`none`) is an on-disk value that fails to decode as UTF-8, while an error
returned by the Base Table read is silently treated as an absent base
value rather than failing. On a table the engine itself wrote the read
never errs and the result is always the Effective Value. -/
theorem C9_select_amended (t : DiskTable) (k : Str) (g : SSGet)
    (m : Option (List Command)) :
    t.select k = t.compact_key k ∧
    compact_keyGen g m = Option.map (applyMuts m) (baseFromGet g) ∧
    compact_keyGen (sstRead t.sstable k) (mutGet k t.mutations) = some (t.select k) ∧
    baseFromGet SSGet.badUtf8 = none ∧
    baseFromGet SSGet.ioError = some none := by
  refine ⟨rfl, ?_, ?_, rfl, rfl⟩
  · cases g <;> rfl
  · unfold sstRead DiskTable.select DiskTable.compact_key compact_keyGen baseFromGet
    cases sstableGet k t.sstable <;> rfl

/-- C10 counterexample: the claim states that a log record that is not an
Insert or Delete decodes to a command with no subject key — listing
SELECT among them — and never contributes an entry to the index. But
`Command::key` (line 81) returns `Some(key)` for `SELECT`, so replaying a
log containing a SELECT record adds an entry for its key. -/
theorem C10_counterexample :
    (Command.SELECT ['a']).key = some ['a'] ∧
    replay [Command.SELECT ['a']] = [(['a'], [Command.SELECT ['a']])] ∧
    replay [Command.SELECT ['a']] ≠ [] := by
  refine ⟨rfl, rfl, by decide⟩

/-- C10 amended: during open/recovery a decoded record is silently
skipped — no error, pending-mutation index unchanged — exactly when
`Command::key` returns nothing, and the commands with no subject key are
DUMP, COMPACT and EXIT; a SELECT record does carry a subject key, so it
would be appended to the index like an Insert or Delete record. -/
theorem C10_replay_skip_amended (m : Mutations) (c : Command) :
    (c.key = none → replayStep m c = m) ∧
    (c.key = none ↔ c = Command.DUMP ∨ c = Command.COMPACT ∨ c = Command.EXIT) := by
  constructor
  · intro h
    simp [replayStep, h]
  · cases c <;> simp [Command.key]

/-- C10 witness: a DUMP record is skipped by one replay step. -/
theorem C10_witness :
    replayStep [(['a'], [Command.INSERT ['a'] ['1']])] Command.DUMP
      = [(['a'], [Command.INSERT ['a'] ['1']])] :=
  (C10_replay_skip_amended [(['a'], [Command.INSERT ['a'] ['1']])] Command.DUMP).1 rfl

theorem replay_snoc (lg : List Command) (c : Command) :
    replay (lg ++ [c]) = replayStep (replay lg) c := by
  simp [replay, List.foldl_append]

theorem wf_new (ss : List (Str × Str)) (lg : List Command) :
    Wf (DiskTable.new ss lg) := rfl

theorem wf_insert (t : DiskTable) (k v : Str) (h : Wf t) : Wf (t.insert k v).1 := by
  cases hc : t.compact_key k with
  | some w =>
    rw [insert_of_some t k v w hc]
    exact h
  | none =>
    rw [insert_of_none t k v hc]
    show mutPush k (Command.INSERT k v) t.mutations = replay (t.log ++ [Command.INSERT k v])
    rw [replay_snoc, ← h]
    rfl

theorem wf_delete (t : DiskTable) (k : Str) (h : Wf t) : Wf (t.delete k).1 := by
  cases hc : t.compact_key k with
  | none =>
    rw [delete_of_none t k hc]
    exact h
  | some w =>
    rw [delete_of_some t k w hc]
    show mutPush k (Command.DELETE k) t.mutations = replay (t.log ++ [Command.DELETE k])
    rw [replay_snoc, ← h]
    rfl

theorem wf_applyOps (t : DiskTable) (ops : List Op) (h : Wf t) : Wf (applyOps t ops) := by
  induction ops generalizing t with
  | nil => exact h
  | cons op ops ih =>
    cases op with
    | ins k v => exact ih _ (wf_insert t k v h)
    | del k => exact ih _ (wf_delete t k h)

theorem reopen_eq_self (t : DiskTable) (h : Wf t) : reopen t = t := by
  cases t with
  | mk lg m ss =>
    have h' : m = replay lg := h
    simp [reopen, DiskTable.new, h']

/-- C6: for any persisted state opened into an engine and any sequence of
inserts and deletes applied to it (in particular any sequence of
successful ones — failing operations return the state unchanged), closing
and reopening the engine against the same directory, which replays the
durable log from the start into a fresh pending-mutation index over the
same sorted table, yields an engine whose Effective Value for every key
is identical to the Effective Value before the restart. -/
theorem C6_replay_restores_state (ss : List (Str × Str)) (lg : List Command)
    (ops : List Op) (k : Str) :
    (reopen (applyOps (DiskTable.new ss lg) ops)).select k
      = (applyOps (DiskTable.new ss lg) ops).select k := by
  rw [reopen_eq_self _ (wf_applyOps _ ops (wf_new ss lg))]

/-- C8: immediately after every successful compaction the
pending-mutation index is empty and the durable log holds no records, so
replaying the log on a subsequent reopen rebuilds an empty index and the
reopened engine equals the compacted one. -/
theorem C8_compaction_clears_state (t t' : DiskTable) (h : t.compact = some t') :
    t'.mutations = [] ∧ t'.log = [] ∧ replay t'.log = [] ∧ reopen t' = t' := by
  unfold DiskTable.compact at h
  rcases he : compactEntries t with ⟨es, ok⟩
  rw [he] at h
  cases ok with
  | false => simp at h
  | true =>
    have ht : ({ log := [], mutations := [], sstable := es } : DiskTable) = t' :=
      Option.some.inj h
    rw [← ht]
    exact ⟨rfl, rfl, rfl, rfl⟩

/-- C8 witness: compacting the engine that holds the single pending
insert of "a" empties the log and the index. -/
theorem C8_witness :
    (⟨[], [], [(['a'], ['1'])]⟩ : DiskTable).mutations = [] ∧
    (⟨[], [], [(['a'], ['1'])]⟩ : DiskTable).log = [] ∧
    replay (⟨[], [], [(['a'], ['1'])]⟩ : DiskTable).log = [] ∧
    reopen (⟨[], [], [(['a'], ['1'])]⟩ : DiskTable) = ⟨[], [], [(['a'], ['1'])]⟩ :=
  C8_compaction_clears_state
    ⟨[Command.INSERT ['a'] ['1']], [(['a'], [Command.INSERT ['a'] ['1']])], []⟩
    ⟨[], [], [(['a'], ['1'])]⟩ (by decide)

theorem innerLoop_emit_sublist (ck : Str → Option Str) (s : Str) (muts : Mutations) :
    ((innerLoop ck s muts).1.map Prod.fst).Sublist (muts.map Prod.fst) := by
  induction muts with
  | nil => simp [innerLoop]
  | cons kv rest ih =>
    obtain ⟨k, cs⟩ := kv
    by_cases hk : k < s
    · cases hck : ck k with
      | none =>
        simp only [innerLoop, if_pos hk, hck]
        exact List.Sublist.cons k ih
      | some v =>
        simp only [innerLoop, if_pos hk, hck, List.map_cons]
        exact List.Sublist.cons₂ k ih
    · simp [innerLoop, if_neg hk]

theorem innerLoop_emit_lt (ck : Str → Option Str) (s : Str) (muts : Mutations) :
    ∀ x ∈ (innerLoop ck s muts).1, x.1 < s := by
  induction muts with
  | nil => simp [innerLoop]
  | cons kv rest ih =>
    obtain ⟨k, cs⟩ := kv
    by_cases hk : k < s
    · cases hck : ck k with
      | none => simpa [innerLoop, if_pos hk, hck] using ih
      | some v =>
        intro x hx
        simp only [innerLoop, if_pos hk, hck] at hx
        rcases List.mem_cons.mp hx with rfl | hx
        · exact hk
        · exact ih x hx
    · simp [innerLoop, if_neg hk]

theorem innerLoop_rem_sublist (ck : Str → Option Str) (s : Str) (muts : Mutations) :
    ((innerLoop ck s muts).2.map Prod.fst).Sublist (muts.map Prod.fst) := by
  induction muts with
  | nil => simp [innerLoop]
  | cons kv rest ih =>
    obtain ⟨k, cs⟩ := kv
    by_cases hk : k < s
    · cases hck : ck k with
      | none =>
        simp only [innerLoop, if_pos hk, hck]
        exact List.Sublist.cons k ih
      | some v =>
        simp only [innerLoop, if_pos hk, hck]
        exact List.Sublist.cons k ih
    · simp only [innerLoop, if_neg hk, List.map_cons]
      exact List.Sublist.cons k (List.Sublist.refl _)

theorem innerLoop_rem_gt (ck : Str → Option Str) (s : Str) (muts : Mutations) :
    (muts.map Prod.fst).Pairwise (· < ·) →
      ∀ x ∈ (innerLoop ck s muts).2, s < x.1 := by
  induction muts with
  | nil =>
    intro _
    simp [innerLoop]
  | cons kv rest ih =>
    obtain ⟨k, cs⟩ := kv
    intro hm
    rw [List.map_cons] at hm
    have hm2 := List.pairwise_cons.mp hm
    by_cases hk : k < s
    · cases hck : ck k with
      | none =>
        simp only [innerLoop, if_pos hk, hck]
        exact ih hm2.2
      | some v =>
        simp only [innerLoop, if_pos hk, hck]
        exact ih hm2.2
    · simp only [innerLoop, if_neg hk]
      intro x hx
      have hkx : k < x.1 := hm2.1 x.1 (List.mem_map_of_mem Prod.fst hx)
      exact lt_of_le_of_lt (not_lt.mp hk) hkx

theorem drainMuts_sublist (ck : Str → Option Str) (muts : Mutations) :
    ((drainMuts ck muts).map Prod.fst).Sublist (muts.map Prod.fst) := by
  induction muts with
  | nil => simp [drainMuts]
  | cons kv rest ih =>
    obtain ⟨k, cs⟩ := kv
    cases hck : ck k with
    | none =>
      simp only [drainMuts, hck]
      exact List.Sublist.cons k ih
    | some v =>
      simp only [drainMuts, hck, List.map_cons]
      exact List.Sublist.cons₂ k ih

theorem outerLoop_mem (ck : Str → Option Str) (ss : List Str) (muts : Mutations) :
    ∀ x ∈ (outerLoop ck ss muts).1, x.1 ∈ ss ∨ x.1 ∈ muts.map Prod.fst := by
  induction ss generalizing muts with
  | nil =>
    intro x hx
    simp only [outerLoop] at hx
    exact Or.inr ((drainMuts_sublist ck muts).subset (List.mem_map_of_mem Prod.fst hx))
  | cons s ss ih =>
    intro x hx
    cases hck : ck s with
    | none =>
      simp only [outerLoop, hck] at hx
      exact Or.inr ((innerLoop_emit_sublist ck s muts).subset (List.mem_map_of_mem Prod.fst hx))
    | some v =>
      simp only [outerLoop, hck] at hx
      rw [List.mem_append] at hx
      rcases hx with hx | hx
      · exact Or.inr ((innerLoop_emit_sublist ck s muts).subset (List.mem_map_of_mem Prod.fst hx))
      · rcases List.mem_cons.mp hx with rfl | hx
        · exact Or.inl (List.mem_cons_self s ss)
        · rcases ih (innerLoop ck s muts).2 x hx with h1 | h1
          · exact Or.inl (List.mem_cons_of_mem s h1)
          · exact Or.inr ((innerLoop_rem_sublist ck s muts).subset h1)

theorem outerLoop_pairwise (ck : Str → Option Str) (ss : List Str) (muts : Mutations) :
    ss.Pairwise (· < ·) → (muts.map Prod.fst).Pairwise (· < ·) →
      ((outerLoop ck ss muts).1.map Prod.fst).Pairwise (· < ·) := by
  induction ss generalizing muts with
  | nil =>
    intro _ hm
    simp only [outerLoop]
    exact hm.sublist (drainMuts_sublist ck muts)
  | cons s ss ih =>
    intro hss hm
    have hss2 := List.pairwise_cons.mp hss
    cases hck : ck s with
    | none =>
      simp only [outerLoop, hck]
      exact hm.sublist (innerLoop_emit_sublist ck s muts)
    | some v =>
      simp only [outerLoop, hck]
      rw [List.map_append, List.pairwise_append]
      have hbig : ∀ b ∈ (outerLoop ck ss (innerLoop ck s muts).2).1.map Prod.fst, s < b := by
        intro b hb
        rcases List.mem_map.mp hb with ⟨x, hx, rfl⟩
        rcases outerLoop_mem ck ss (innerLoop ck s muts).2 x hx with h1 | h1
        · exact hss2.1 x.1 h1
        · rcases List.mem_map.mp h1 with ⟨y, hy, hxy⟩
          rw [← hxy]
          exact innerLoop_rem_gt ck s muts hm y hy
      refine ⟨hm.sublist (innerLoop_emit_sublist ck s muts), ?_, ?_⟩
      · rw [List.map_cons, List.pairwise_cons]
        refine ⟨hbig, ?_⟩
        exact ih (innerLoop ck s muts).2 hss2.2 (hm.sublist (innerLoop_rem_sublist ck s muts))
      · intro a ha b hb
        have ha2 : a < s := by
          rcases List.mem_map.mp ha with ⟨x, hx, rfl⟩
          exact innerLoop_emit_lt ck s muts x hx
        rw [List.map_cons] at hb
        rcases List.mem_cons.mp hb with rfl | hb
        · exact ha2
        · exact lt_trans ha2 (hbig b hb)

/-- C7: for any Base Table contents and any pending-mutation index
contents, each with strictly ascending keys, the sequence of entries that
compaction emits into the new table builder has strictly ascending keys
with no duplicates. -/
theorem C7_compaction_output_sorted (t : DiskTable)
    (hss : (t.sstable.map Prod.fst).Pairwise (· < ·))
    (hm : (t.mutations.map Prod.fst).Pairwise (· < ·)) :
    ((compactEntries t).1.map Prod.fst).Pairwise (· < ·) :=
  outerLoop_pairwise t.compact_key (t.sstable.map Prod.fst) t.mutations hss hm

/-- C7 witness: a concrete interleaving — base keys "a" and "c", pending
key "b" — emits strictly ascending keys. -/
theorem C7_witness :
    (((⟨[], [(['b'], [Command.INSERT ['b'] ['2']])],
          [(['a'], ['1']), (['c'], ['3'])]⟩ : DiskTable).sstable.map
        Prod.fst).Pairwise (· < ·)) ∧
    (((⟨[], [(['b'], [Command.INSERT ['b'] ['2']])],
          [(['a'], ['1']), (['c'], ['3'])]⟩ : DiskTable).mutations.map
        Prod.fst).Pairwise (· < ·)) ∧
    ((compactEntries
          (⟨[], [(['b'], [Command.INSERT ['b'] ['2']])],
            [(['a'], ['1']), (['c'], ['3'])]⟩ : DiskTable)).1.map
        Prod.fst).Pairwise (· < ·) :=
  ⟨by decide, by decide,
   C7_compaction_output_sorted
     (⟨[], [(['b'], [Command.INSERT ['b'] ['2']])],
       [(['a'], ['1']), (['c'], ['3'])]⟩ : DiskTable) (by decide) (by decide)⟩

/-- C1: the claim that a successful compaction preserves every key's
Effective Value fails on the code. Failing input: fresh engine, insert
"a"="1", compact, insert "b"="2", compact. Before the second compaction
the pending-only key "b" has Effective Value "2"; during the merge the
inner loop calls `mut_iter.next()` (line 235), sees "b" ≥ "a", and breaks
(line 249) — the consumed entry for "b" is discarded, so the second
compaction succeeds but the new table omits "b" and afterwards `select`
reports "b" as absent. -/
theorem C1_compaction_loses_pending_key :
    ((run (DiskTable.new [] []) [Prog.ins ['a'] ['1'], Prog.cpt, Prog.ins ['b'] ['2']]).map
        (fun t => t.select ['b']) = some (some ['2'])) ∧
    ((run (DiskTable.new [] [])
          [Prog.ins ['a'] ['1'], Prog.cpt, Prog.ins ['b'] ['2'], Prog.cpt]).map
        (fun t => t.select ['b']) = some none) :=
  ⟨rfl, rfl⟩

/-- C3: the claim that a key present in both the Base Table and the
pending-mutation index whose Effective Value is absent (tombstoned) is
silently omitted fails on the code. Failing input: fresh engine, insert
"a"="1", compact, delete "a", compact. Before the second compaction "a"
is in the base table and its pending sequence ends in a delete, so its
Effective Value is absent; the merge then evaluates
`compact_key(sstable_key).expect("Failed to get key")` (line 254) on
`None` and panics — the run aborts instead of emitting nothing. -/
theorem C3_compaction_panics_on_tombstone :
    ((run (DiskTable.new [] []) [Prog.ins ['a'] ['1'], Prog.cpt, Prog.del ['a']]).map
        (fun t => t.select ['a']) = some none) ∧
    run (DiskTable.new [] []) [Prog.ins ['a'] ['1'], Prog.cpt, Prog.del ['a'], Prog.cpt]
      = none :=
  ⟨rfl, rfl⟩
